import Mathlib

/-!
Verification of the routing-lab repository (dijkstra.py, flooding.py,
router.py) against its natural-language specification.

The Python code is shallowly embedded: dictionaries become association
lists over `String` keys, Python numeric costs (ints and `float('inf')`)
become the `Cost` type below, and the message-driven handlers of
`RouterNode` become pure state-transition functions on explicit state
records.  Loops whose termination is not structural take explicit fuel
and return `Option`.
-/

set_option autoImplicit false

namespace Redes

/-- Node identifiers are strings (Python uses string node ids). -/
abbrev Node := String

/-- A Python numeric cost: a finite integer or `float('inf')`. -/
inductive Cost where
  | fin : Int → Cost
  | inf : Cost
deriving DecidableEq, Repr

/-- Python `+` on costs as used by the code (a finite value plus a
finite value; anything involving infinity is infinite). -/
def Cost.add : Cost → Cost → Cost
  | Cost.fin a, Cost.fin b => Cost.fin (a + b)
  | _, _ => Cost.inf

/-- Python `<` on costs: finite values compare as integers, every finite
value is below infinity, and `inf < inf` is false. -/
def Cost.ltb : Cost → Cost → Bool
  | Cost.fin a, Cost.fin b => a < b
  | Cost.fin _, Cost.inf => true
  | Cost.inf, _ => false

/-- First-match lookup in an association list: Python `dict[k]` /
`dict.get(k)` (dict keys are unique, so first match is the match). -/
def alookup {α : Type} : List (Node × α) → Node → Option α
  | [], _ => none
  | (k, v) :: t, k' => if k = k' then some v else alookup t k'

/-- Python `dict[k] = v`: update the entry in place when the key is
present, append it otherwise (dicts keep insertion order). -/
def aset {α : Type} : List (Node × α) → Node → α → List (Node × α)
  | [], k, v => [(k, v)]
  | (k', v') :: t, k, v => if k' = k then (k, v) :: t else (k', v') :: aset t k v

/-- Python `del dict[k]`: remove the entry with key `k` (keys are
unique, so removing every occurrence is the same operation). -/
def adel {α : Type} : List (Node × α) → Node → List (Node × α)
  | [], _ => []
  | (k', v) :: t, k => if k' = k then adel t k else (k', v) :: adel t k

/-- Python `k in dict`. -/
def akeyMem {α : Type} (l : List (Node × α)) (k : Node) : Bool :=
  l.any (fun p => p.1 = k)

@[simp] theorem alookup_nil {α : Type} (k : Node) : alookup ([] : List (Node × α)) k = none := rfl

@[simp] theorem alookup_cons {α : Type} (k' : Node) (v : α) (t : List (Node × α)) (k : Node) :
    alookup ((k', v) :: t) k = if k' = k then some v else alookup t k := rfl

theorem alookup_aset_self {α : Type} (l : List (Node × α)) (k : Node) (v : α) :
    alookup (aset l k v) k = some v := by
  induction l with
  | nil => simp [aset, alookup]
  | cons p t ih =>
    obtain ⟨k', v'⟩ := p
    by_cases h : k' = k
    · simp [aset, h, alookup]
    · simp [aset, h, alookup, ih]

theorem alookup_aset_ne {α : Type} (l : List (Node × α)) (k k' : Node) (v : α)
    (h : k ≠ k') : alookup (aset l k v) k' = alookup l k' := by
  induction l with
  | nil => simp [aset, alookup, h]
  | cons p t ih =>
    obtain ⟨a, b⟩ := p
    by_cases ha : a = k
    · subst ha
      simp [aset, alookup, h]
    · simp [aset, ha, alookup, ih]

theorem alookup_adel_self {α : Type} (l : List (Node × α)) (k : Node) :
    alookup (adel l k) k = none := by
  induction l with
  | nil => simp [adel, alookup]
  | cons p t ih =>
    obtain ⟨a, b⟩ := p
    by_cases h : a = k
    · simpa [adel, h] using ih
    · simpa [adel, h, alookup] using ih

theorem alookup_adel_ne {α : Type} (l : List (Node × α)) (k k' : Node) (h : k ≠ k') :
    alookup (adel l k) k' = alookup l k' := by
  induction l with
  | nil => simp [adel, alookup]
  | cons p t ih =>
    obtain ⟨a, b⟩ := p
    by_cases ha : a = k
    · subst ha
      simpa [adel, alookup, h] using ih
    · by_cases hb : a = k'
      · simp [adel, ha, alookup, hb, Ne.symm h]
      · simpa [adel, ha, alookup, hb] using ih

theorem adel_of_not_mem {α : Type} (l : List (Node × α)) (k : Node)
    (h : alookup l k = none) : adel l k = l := by
  induction l with
  | nil => rfl
  | cons p t ih =>
    obtain ⟨a, b⟩ := p
    by_cases ha : a = k
    · simp [alookup, ha] at h
    · simp [alookup, ha] at h
      simp [adel, ha, ih h]

theorem alookup_some_mem {α : Type} (l : List (Node × α)) (k : Node) (v : α)
    (h : alookup l k = some v) : (k, v) ∈ l := by
  induction l with
  | nil => simp [alookup] at h
  | cons p t ih =>
    obtain ⟨a, b⟩ := p
    by_cases ha : a = k
    · subst ha
      simp [alookup] at h
      simp [h]
    · simp [alookup, ha] at h
      exact List.mem_cons_of_mem _ (ih h)

theorem alookup_none_of_forall {α : Type} (l : List (Node × α)) (k : Node)
    (h : ∀ p ∈ l, p.1 ≠ k) : alookup l k = none := by
  induction l with
  | nil => rfl
  | cons p t ih =>
    obtain ⟨a, b⟩ := p
    have ha : a ≠ k := h (a, b) (List.mem_cons_self _ _)
    simp [alookup, ha]
    exact ih fun p hp => h p (List.mem_cons_of_mem _ hp)

/-! ## Dijkstra (src/dijkstra.py, lines 3–38)

`heapq` holds `(distance, node)` pairs; `heappop` returns the minimum
under lexicographic tuple order.  We model the priority queue as a bag
(list) from which `popMin` removes one minimum element.  The main loop
and path reconstruction take fuel and return `none` on fuel exhaustion
(never reached on the concrete inputs considered) or on a `KeyError`.
-/

/-- Lexicographic strict order on strings by code point, as Python
compares the node components of heap tuples. -/
def strLtb : List Char → List Char → Bool
  | [], [] => false
  | [], _ :: _ => true
  | _ :: _, [] => false
  | a :: as, b :: bs =>
    if a.toNat < b.toNat then true
    else if b.toNat < a.toNat then false
    else strLtb as bs

/-- Lexicographic `≤` on Python `(distance, node)` tuples. -/
def tupLe (a b : Int × Node) : Bool :=
  decide (a.1 < b.1) || (decide (a.1 = b.1) && (strLtb a.2.data b.2.data || a.2 == b.2))

/-- Remove one minimum element (lexicographic order) from the queue:
the observable behaviour of `heapq.heappop`. -/
def popMin : List (Int × Node) → Option ((Int × Node) × List (Int × Node))
  | [] => none
  | x :: xs =>
    match popMin xs with
    | none => some (x, [])
    | some (m, _) =>
      if tupLe x m then some (x, xs)
      else some (m, x :: (xs.erase m))

/-- A weighted graph: node → (neighbor → weight), as in the Python dicts. -/
abbrev WGraph := List (Node × List (Node × Int))

/-- One relaxation sweep over the adjacency list of the popped node
(the inner `for neighbor, weight in graph[current_node].items()`). -/
def dijkstraRelax (currentDistance : Int) (currentNode : Node) :
    List (Node × Int) → List (Node × Cost) → List (Node × Option Node) → List (Int × Node) →
    Option (List (Node × Cost) × List (Node × Option Node) × List (Int × Node))
  | [], distances, previous, pq => some (distances, previous, pq)
  | (nb, w) :: rest, distances, previous, pq =>
    match alookup distances nb with
    | none => none  -- Python KeyError: neighbor not a key of `distances`
    | some dnb =>
      let d := Cost.fin (currentDistance + w)
      if d.ltb dnb then
        dijkstraRelax currentDistance currentNode rest (aset distances nb d)
          (aset previous nb (some currentNode)) (pq ++ [(currentDistance + w, nb)])
      else
        dijkstraRelax currentDistance currentNode rest distances previous pq

/-- The `while priority_queue:` loop of `dijkstra`. -/
def dijkstraLoop (graph : WGraph) (target : Node) :
    Nat → List (Int × Node) → List (Node × Cost) → List (Node × Option Node) →
    Option (List (Node × Cost) × List (Node × Option Node))
  | 0, _, _, _ => none
  | fuel + 1, pq, distances, previous =>
    match popMin pq with
    | none => some (distances, previous)
    | some ((currentDistance, currentNode), pq') =>
      if currentNode = target then some (distances, previous)
      else
        match alookup distances currentNode with
        | none => none
        | some dcur =>
          if dcur.ltb (Cost.fin currentDistance) then
            dijkstraLoop graph target fuel pq' distances previous
          else
            match alookup graph currentNode with
            | none => none  -- Python KeyError
            | some adj =>
              match dijkstraRelax currentDistance currentNode adj distances previous pq' with
              | none => none
              | some (d', p', q') => dijkstraLoop graph target fuel q' d' p'

/-- The `while node is not None:` path-reconstruction loop, accumulating
in reverse so the result is already the reversed (source-first) path. -/
def buildPath (previous : List (Node × Option Node)) :
    Nat → Node → List Node → Option (List Node)
  | 0, _, _ => none
  | fuel + 1, node, acc =>
    match alookup previous node with
    | none => none  -- Python KeyError
    | some none => some (node :: acc)
    | some (some prev) => buildPath previous fuel prev (node :: acc)

/-- `dijkstra(graph, start, target)` from src/dijkstra.py. -/
def dijkstra (graph : WGraph) (start target : Node) (fuel : Nat) :
    Option (List Node × Cost) :=
  if akeyMem graph start && akeyMem graph target then
    let distances0 := aset (graph.map fun p => (p.1, Cost.inf)) start (Cost.fin 0)
    let previous0 : List (Node × Option Node) := graph.map fun p => (p.1, none)
    match dijkstraLoop graph target fuel [(0, start)] distances0 previous0 with
    | none => none
    | some (distances, previous) =>
      match buildPath previous fuel target [] with
      | none => none
      | some path =>
        match alookup distances target with
        | none => none
        | some dt =>
          if path.head? = some start then some (path, dt)
          else some ([], Cost.inf)
  else some ([], Cost.inf)

/-- The five-node test graph of the specification. -/
def specGraph : WGraph :=
  [ ("A", [("B", 1), ("C", 4)]),
    ("B", [("A", 1), ("C", 2), ("D", 5)]),
    ("C", [("A", 4), ("B", 2), ("D", 1)]),
    ("D", [("B", 5), ("C", 1), ("E", 3)]),
    ("E", [("D", 3)]) ]

/-! ## Flooding (src/flooding.py, lines 3–46)

The BFS queue entries carry `(current_node, path, incoming_node, hops)`.
`visited_paths` is a set of paths; we keep it as a duplicate-free list.
The loop takes fuel; the interesting inputs all terminate well inside it.
The internal loop additionally returns the final visited set so that the
packet counter can be related to the number of enqueue operations (each
enqueue adds exactly one path to the visited set and increments the
counter by one).
-/

/-- An unweighted graph: node → neighbor list (Python iterates dict keys). -/
abbrev UGraph := List (Node × List Node)

/-- One queue element of the flooding BFS:
`(current_node, path, incoming_node, hops)`. -/
structure FEntry where
  cur : Node
  path : List Node
  inc : Option Node
  hops : Nat
deriving DecidableEq, Repr

/-- The `for neighbor in graph[current_node]:` body of the flooding loop:
skip the incoming node, skip already-visited paths, otherwise enqueue,
record the path as visited, and count the packet. -/
def expandNbrs (inc : Option Node) (cur : Node) (path : List Node) (hops : Nat) :
    List Node → List FEntry → List (List Node) → Nat →
    List FEntry × List (List Node) × Nat
  | [], q, v, c => (q, v, c)
  | nb :: rest, q, v, c =>
    if some nb ≠ inc then
      if path ++ [nb] ∈ v then expandNbrs inc cur path hops rest q v c
      else expandNbrs inc cur path hops rest
        (q ++ [⟨nb, path ++ [nb], some cur, hops + 1⟩]) (v ++ [path ++ [nb]]) (c + 1)
    else expandNbrs inc cur path hops rest q v c

/-- The `while queue:` loop of `flooding_paths`; also returns the final
visited set.  `none` on fuel exhaustion or on a Python `KeyError`. -/
def floodLoop (g : UGraph) (target : Node) (maxHops : Nat) :
    Nat → List FEntry → List (List Node) → List (List Node) → Nat →
    Option (List (List Node) × List (List Node) × Nat)
  | 0, _, _, _, _ => none
  | _ + 1, [], paths, v, c => some (paths, v, c)
  | fuel + 1, e :: rest, paths, v, c =>
    if e.cur = target then floodLoop g target maxHops fuel rest (paths ++ [e.path]) v c
    else if maxHops ≤ e.hops then floodLoop g target maxHops fuel rest paths v c
    else
      match alookup g e.cur with
      | none => none  -- Python KeyError
      | some adj =>
        match expandNbrs e.inc e.cur e.path e.hops adj rest v c with
        | (q', v', c') => floodLoop g target maxHops fuel q' paths v' c'

/-- `flooding_paths` instrumented with the final visited set. -/
def floodingFull (g : UGraph) (start target : Node) (maxHops fuel : Nat) :
    Option (List (List Node) × List (List Node) × Nat) :=
  if akeyMem g start && akeyMem g target then
    floodLoop g target maxHops fuel [⟨start, [start], none, 0⟩] [] [[start]] 1
  else some ([], [], 0)

/-- `flooding_paths(graph, start, target, max_hops)` from src/flooding.py. -/
def flooding_paths (g : UGraph) (start target : Node) (maxHops fuel : Nat) :
    Option (List (List Node) × Nat) :=
  (floodingFull g start target maxHops fuel).map fun r => (r.1, r.2.2)

/-- Every consecutive pair of the list is an edge of the graph. -/
def isWalk (g : UGraph) : List Node → Bool
  | [] => true
  | [_] => true
  | a :: b :: t => decide (b ∈ (alookup g a).getD []) && isWalk g (b :: t)

/-- No immediate reversal: the node two steps back never equals the node
just entered. -/
def noRev : List Node → Bool
  | a :: b :: c :: t => decide (a ≠ c) && noRev (b :: c :: t)
  | _ => true

/-- The next-to-last element of a path (the `incoming_node` of its tip). -/
def secondLast (p : List Node) : Option Node := p.dropLast.getLast?

/-- What every queue entry of the flooding BFS satisfies. -/
def EntryInv (g : UGraph) (start : Node) (maxHops : Nat) (e : FEntry) : Prop :=
  e.path ≠ [] ∧ e.path.head? = some start ∧ e.path.getLast? = some e.cur ∧
  isWalk g e.path = true ∧ noRev e.path = true ∧
  e.path.length = e.hops + 1 ∧ e.hops ≤ maxHops ∧ e.inc = secondLast e.path

/-- What every returned path of `flooding_paths` satisfies. -/
def ResultPath (g : UGraph) (start target : Node) (maxHops : Nat) (p : List Node) : Prop :=
  p ≠ [] ∧ p.head? = some start ∧ p.getLast? = some target ∧
  isWalk g p = true ∧ noRev p = true ∧ p.length ≤ maxHops + 1

/-- Invariant of the flooding BFS loop state. -/
def LoopInv (g : UGraph) (start target : Node) (maxHops : Nat)
    (q : List FEntry) (paths v : List (List Node)) (c : Nat) : Prop :=
  (∀ e ∈ q, EntryInv g start maxHops e) ∧
  (∀ p ∈ paths, ResultPath g start target maxHops p) ∧
  (∀ p ∈ paths ++ q.map FEntry.path, p ∈ v) ∧
  (paths ++ q.map FEntry.path).Nodup ∧ v.Nodup ∧ c = v.length

/-- The four-node path graph A-B-C-D of the specification. -/
def pathGraph : UGraph :=
  [("A", ["B"]), ("B", ["A", "C"]), ("C", ["B", "D"]), ("D", ["C"])]

theorem isWalk_concat (g : UGraph) :
    ∀ (p : List Node) (cur nb : Node), p.getLast? = some cur →
      isWalk g p = true → nb ∈ (alookup g cur).getD [] →
      isWalk g (p ++ [nb]) = true := by
  intro p
  induction p with
  | nil => intro cur nb h _ _; simp at h
  | cons a t ih =>
    intro cur nb hlast hwalk hnb
    cases t with
    | nil =>
      simp [List.getLast?] at hlast
      subst hlast
      simpa [isWalk] using hnb
    | cons b t' =>
      have hlast' : (b :: t').getLast? = some cur := by
        simpa [List.getLast?_cons_cons] using hlast
      rw [isWalk, Bool.and_eq_true] at hwalk
      have hrec := ih cur nb hlast' hwalk.2 hnb
      simp only [List.cons_append] at hrec ⊢
      rw [isWalk, Bool.and_eq_true]
      exact ⟨hwalk.1, hrec⟩

theorem secondLast_cons_cons_cons (a b c : Node) (t : List Node) :
    secondLast (a :: b :: c :: t) = secondLast (b :: c :: t) := by
  simp only [secondLast, List.dropLast_cons₂]
  rw [List.getLast?_cons_cons]

theorem noRev_concat :
    ∀ (p : List Node) (nb : Node), noRev p = true →
      secondLast p ≠ some nb → noRev (p ++ [nb]) = true := by
  intro p
  induction p with
  | nil => intro nb _ _; simp [noRev]
  | cons a t ih =>
    intro nb hnr hsl
    cases t with
    | nil => simp [noRev]
    | cons b t' =>
      cases t' with
      | nil =>
        simp only [secondLast, List.dropLast_cons₂, List.dropLast_single,
          List.getLast?_singleton, ne_eq, Option.some.injEq] at hsl
        simp [noRev, hsl]
      | cons c t'' =>
        rw [noRev, Bool.and_eq_true] at hnr
        have hsl' : secondLast (b :: c :: t'') ≠ some nb := by
          rw [secondLast_cons_cons_cons] at hsl
          exact hsl
        have hrec := ih nb hnr.2 hsl'
        simp only [List.cons_append] at hrec ⊢
        rw [noRev, Bool.and_eq_true]
        exact ⟨hnr.1, hrec⟩

theorem head?_concat {p : List Node} (nb : Node) (h : p ≠ []) :
    (p ++ [nb]).head? = p.head? := by
  cases p with
  | nil => exact absurd rfl h
  | cons a t => simp

theorem secondLast_concat (p : List Node) (nb : Node) :
    secondLast (p ++ [nb]) = p.getLast? := by
  simp [secondLast, List.dropLast_concat]

theorem expandNbrs_inv (g : UGraph) (start target : Node) (maxHops : Nat)
    (e : FEntry) (adj : List Node) (hadj : alookup g e.cur = some adj)
    (hE : EntryInv g start maxHops e) (hh : e.hops < maxHops) :
    ∀ (nbrs : List Node) (q : List FEntry) (paths v : List (List Node)) (c : Nat),
      (∀ nb ∈ nbrs, nb ∈ adj) →
      LoopInv g start target maxHops q paths v c →
      LoopInv g start target maxHops (expandNbrs e.inc e.cur e.path e.hops nbrs q v c).1
        paths (expandNbrs e.inc e.cur e.path e.hops nbrs q v c).2.1
        (expandNbrs e.inc e.cur e.path e.hops nbrs q v c).2.2 := by
  intro nbrs
  induction nbrs with
  | nil => intro q paths v c _ hI; simpa [expandNbrs] using hI
  | cons nb rest ih =>
    intro q paths v c hsub hI
    have hsub' : ∀ x ∈ rest, x ∈ adj := fun x hx => hsub x (List.mem_cons_of_mem _ hx)
    by_cases h1 : some nb ≠ e.inc
    · by_cases h2 : e.path ++ [nb] ∈ v
      · rw [expandNbrs, if_pos h1, if_pos h2]
        exact ih q paths v c hsub' hI
      · rw [expandNbrs, if_pos h1, if_neg h2]
        apply ih _ paths _ _ hsub'
        obtain ⟨hq, hpaths, hmem, hnd, hvnd, hc⟩ := hI
        obtain ⟨hne, hhead, hlastE, hwalk, hnr, hlen, _, hincE⟩ := hE
        have hnbadj : nb ∈ (alookup g e.cur).getD [] := by
          rw [hadj]; exact hsub nb (List.mem_cons_self _ _)
        have hEnew : EntryInv g start maxHops ⟨nb, e.path ++ [nb], some e.cur, e.hops + 1⟩ := by
          refine ⟨by simp, ?_, ?_, ?_, ?_, ?_, hh, ?_⟩
          · rw [head?_concat nb hne]; exact hhead
          · simp [List.getLast?_concat]
          · exact isWalk_concat g e.path e.cur nb hlastE hwalk hnbadj
          · refine noRev_concat e.path nb hnr ?_
            intro hsl
            exact h1 (by rw [hincE, hsl])
          · simp [hlen]
          · simp [secondLast_concat, hlastE]
        have hnewnotold : e.path ++ [nb] ∉ paths ++ q.map FEntry.path := by
          intro hmem'
          exact h2 (hmem _ hmem')
        refine ⟨?_, hpaths, ?_, ?_, ?_, ?_⟩
        · intro x hx
          rcases List.mem_append.1 hx with hx | hx
          · exact hq x hx
          · rw [List.mem_singleton] at hx
            subst hx
            exact hEnew
        · intro p hp
          simp only [List.map_append, List.map_cons, List.map_nil] at hp
          rw [← List.append_assoc] at hp
          rcases List.mem_append.1 hp with hp | hp
          · exact List.mem_append_left _ (hmem p hp)
          · rw [List.mem_singleton] at hp
            subst hp
            exact List.mem_append_right _ (List.mem_singleton_self _)
        · simp only [List.map_append, List.map_cons, List.map_nil]
          rw [← List.append_assoc]
          refine List.Nodup.append hnd (List.nodup_singleton _) ?_
          simp only [List.disjoint_singleton]
          exact hnewnotold
        · refine List.Nodup.append hvnd (List.nodup_singleton _) ?_
          simp only [List.disjoint_singleton]
          exact h2
        · simp [hc]
    · rw [expandNbrs, if_neg h1]
      exact ih q paths v c hsub' hI

theorem floodLoop_sound (g : UGraph) (start target : Node) (maxHops : Nat) :
    ∀ (fuel : Nat) (q : List FEntry) (paths v : List (List Node)) (c : Nat)
      (res : List (List Node) × List (List Node) × Nat),
      LoopInv g start target maxHops q paths v c →
      floodLoop g target maxHops fuel q paths v c = some res →
      (∀ p ∈ res.1, ResultPath g start target maxHops p) ∧
      res.1.Nodup ∧ res.2.1.Nodup ∧ res.2.2 = res.2.1.length := by
  intro fuel
  induction fuel with
  | zero => intro q paths v c res _ h; simp [floodLoop] at h
  | succ fuel ih =>
    intro q paths v c res hI hrun
    cases q with
    | nil =>
      rw [floodLoop] at hrun
      cases hrun
      obtain ⟨_, h2, _, h4, h5, h6⟩ := hI
      simp only [List.map_nil, List.append_nil] at h4
      exact ⟨h2, h4, h5, h6⟩
    | cons e rest =>
      rw [floodLoop] at hrun
      obtain ⟨hq, hpaths, hmem, hnd, hvnd, hc⟩ := hI
      by_cases ht : e.cur = target
      · rw [if_pos ht] at hrun
        refine ih rest (paths ++ [e.path]) v c res ⟨?_, ?_, ?_, ?_, hvnd, hc⟩ hrun
        · exact fun x hx => hq x (List.mem_cons_of_mem _ hx)
        · intro p hp
          rcases List.mem_append.1 hp with hp | hp
          · exact hpaths p hp
          · rw [List.mem_singleton] at hp
            subst hp
            obtain ⟨hne, hhead, hlast, hwalk, hnr, hlen, hhops, _⟩ :=
              hq e (List.mem_cons_self _ _)
            exact ⟨hne, hhead, by rw [hlast, ht], hwalk, hnr,
              by rw [hlen]; omega⟩
        · intro p hp
          apply hmem
          simpa [List.append_assoc] using hp
        · simpa [List.append_assoc] using hnd
      · rw [if_neg ht] at hrun
        have hsub : (paths ++ rest.map FEntry.path).Sublist
            (paths ++ (e :: rest).map FEntry.path) := by
          simp only [List.map_cons]
          exact (List.sublist_cons_self _ _).append_left paths
        have hrestI : LoopInv g start target maxHops rest paths v c :=
          ⟨fun x hx => hq x (List.mem_cons_of_mem _ hx), hpaths,
            fun p hp => hmem p (hsub.mem hp), hnd.sublist hsub, hvnd, hc⟩
        by_cases hm : maxHops ≤ e.hops
        · rw [if_pos hm] at hrun
          exact ih rest paths v c res hrestI hrun
        · rw [if_neg hm] at hrun
          cases hadj : alookup g e.cur with
          | none => rw [hadj] at hrun; exact absurd hrun (by simp)
          | some adj =>
            rw [hadj] at hrun
            have hexp := expandNbrs_inv g start target maxHops e adj hadj
              (hq e (List.mem_cons_self _ _)) (by omega) adj rest paths v c
              (fun x hx => hx) hrestI
            exact ih _ _ _ _ _ hexp hrun

theorem floodingFull_sound (g : UGraph) (start target : Node) (maxHops fuel : Nat)
    (paths v : List (List Node)) (c : Nat)
    (h : floodingFull g start target maxHops fuel = some (paths, v, c)) :
    (∀ p ∈ paths, ResultPath g start target maxHops p) ∧
    paths.Nodup ∧ v.Nodup ∧ c = v.length := by
  rw [floodingFull] at h
  by_cases hk : (akeyMem g start && akeyMem g target) = true
  · rw [if_pos hk] at h
    have hinit : LoopInv g start target maxHops
        [⟨start, [start], none, 0⟩] [] [[start]] 1 := by
      refine ⟨?_, ?_, ?_, ?_, ?_, rfl⟩
      · intro e he
        rw [List.mem_singleton] at he
        subst he
        exact ⟨by simp, rfl, rfl, rfl, rfl, rfl, Nat.zero_le _, rfl⟩
      · intro p hp
        simp at hp
      · intro p hp
        simpa using hp
      · simp
      · simp
    exact floodLoop_sound g start target maxHops fuel _ _ _ _ _ hinit h
  · rw [if_neg hk] at h
    cases h
    refine ⟨?_, List.nodup_nil, List.nodup_nil, rfl⟩
    intro p hp
    simp at hp

/-- C7: every path returned by `flooding_paths` has at most `maxHops`
edges; the returned packet counter equals the number of enqueue
operations performed (each enqueue adds exactly one path to the
duplicate-free visited set, so the counter equals the size of the final
visited set); and on the path graph A-B-C-D with `maxHops = 2` no path
from A to D is returned and exactly 3 packets are counted. -/
theorem flooding_respects_maxHops :
    (∀ (g : UGraph) (start target : Node) (maxHops fuel : Nat)
       (paths v : List (List Node)) (c : Nat),
       floodingFull g start target maxHops fuel = some (paths, v, c) →
       (∀ p ∈ paths, p.length - 1 ≤ maxHops) ∧ c = v.length ∧ v.Nodup) ∧
    flooding_paths pathGraph "A" "D" 2 20 = some ([], 3) := by
  constructor
  · intro g start target maxHops fuel paths v c h
    obtain ⟨hres, _, hvnd, hc⟩ := floodingFull_sound g start target maxHops fuel paths v c h
    refine ⟨?_, hc, hvnd⟩
    intro p hp
    have := (hres p hp).2.2.2.2.2
    omega
  · rfl

/-- Witness for C7 at a concrete input. -/
theorem flooding_respects_maxHops_witness :
    (∀ p ∈ ([["A", "B", "C", "D"]] : List (List Node)), p.length - 1 ≤ 10) ∧
    (4 : Nat) = ([["A"], ["A", "B"], ["A", "B", "C"], ["A", "B", "C", "D"]] :
      List (List Node)).length ∧
    ([["A"], ["A", "B"], ["A", "B", "C"], ["A", "B", "C", "D"]] :
      List (List Node)).Nodup :=
  flooding_respects_maxHops.1 pathGraph "A" "D" 10 20
    [["A", "B", "C", "D"]] [["A"], ["A", "B"], ["A", "B", "C"], ["A", "B", "C", "D"]] 4
    (by rfl)

/-- C10: every path returned by `flooding_paths` starts at the source,
ends at the target, follows edges of the graph, never immediately
reverses an edge, and the returned paths are pairwise distinct; when
source equals target (and is a key of the graph) the single path
`[source]` is returned with packet count 1. -/
theorem flooding_paths_valid :
    (∀ (g : UGraph) (start target : Node) (maxHops fuel : Nat)
       (paths v : List (List Node)) (c : Nat),
       floodingFull g start target maxHops fuel = some (paths, v, c) →
       paths.Nodup ∧ ∀ p ∈ paths,
         p.head? = some start ∧ p.getLast? = some target ∧
         isWalk g p = true ∧ noRev p = true) ∧
    (∀ (g : UGraph) (start : Node) (maxHops fuel : Nat),
       akeyMem g start = true →
       flooding_paths g start start maxHops (fuel + 2) = some ([[start]], 1)) := by
  constructor
  · intro g start target maxHops fuel paths v c h
    obtain ⟨hres, hnd, _, _⟩ := floodingFull_sound g start target maxHops fuel paths v c h
    refine ⟨hnd, ?_⟩
    intro p hp
    obtain ⟨_, h2, h3, h4, h5, _⟩ := hres p hp
    exact ⟨h2, h3, h4, h5⟩
  · intro g start maxHops fuel hk
    rw [flooding_paths, floodingFull, if_pos (by rw [hk]; rfl)]
    rw [floodLoop, if_pos rfl, floodLoop]
    rfl

/-- Witness for C10 at a concrete input. -/
theorem flooding_paths_valid_witness :
    (([["A", "B", "C", "D"]] : List (List Node)).Nodup ∧
      ∀ p ∈ ([["A", "B", "C", "D"]] : List (List Node)),
        p.head? = some "A" ∧ p.getLast? = some "D" ∧
        isWalk pathGraph p = true ∧ noRev p = true) ∧
    flooding_paths pathGraph "B" "B" 5 7 = some ([["B"]], 1) :=
  ⟨flooding_paths_valid.1 pathGraph "A" "D" 10 20
      [["A", "B", "C", "D"]] [["A"], ["A", "B"], ["A", "B", "C"], ["A", "B", "C", "D"]] 4
      (by rfl),
    flooding_paths_valid.2 pathGraph "B" 5 5 (by rfl)⟩

/-- C1 counterexample: on the specification's five-node test graph the
code returns total cost 7 for A→E (via A-B-C-D-E, which costs
1+2+1+3 = 7), not 8 as the claim states for either candidate path. -/
theorem dijkstra_specGraph_cost_not_eight :
    dijkstra specGraph "A" "E" 20 ≠ some (["A", "B", "C", "D", "E"], Cost.fin 8) ∧
    dijkstra specGraph "A" "E" 20 ≠ some (["A", "C", "D", "E"], Cost.fin 8) := by
  constructor <;> decide

/-- C1 (amended): `dijkstra` on the specification's test graph returns
the path A-B-C-D-E with total cost 7 for A→E, and the path D-C-B with
total cost 3 for D→B. -/
theorem dijkstra_specGraph_results :
    dijkstra specGraph "A" "E" 20 = some (["A", "B", "C", "D", "E"], Cost.fin 7) ∧
    dijkstra specGraph "D" "B" 20 = some (["D", "C", "B"], Cost.fin 3) :=
  ⟨rfl, rfl⟩

/-! ## RouterNode, distance-vector mode (src/router.py)

The distance-vector state of a `RouterNode`:
`neighbors` (the active neighbor list), the key set of
`neighbor_last_seen` (the timestamps themselves are wall-clock and play
no role in the claims), `neighbor_vectors`, `distance_vector` and
`routing_table`.  The message handlers become pure functions
`DVState → DVState × Bool × messages`, where the `Bool` is the value
returned by `apply_bellman_ford` and the messages are the
`(neighbor, outbound vector)` pairs sent by
`broadcast_distance_vector`.
-/

/-- Distance-vector state of a router node. -/
structure DVState where
  nodeId : Node
  neighbors : List Node
  lastSeen : List Node
  neighborVectors : List (Node × List (Node × Cost))
  distanceVector : List (Node × Cost)
  routingTable : List (Node × Node)
deriving DecidableEq, Repr

/-- The direct-neighbor loop shared by `_init_distance_vector`
(lines 266–268) and `apply_bellman_ford` (lines 399–401): cost 1 and
next hop = the neighbor itself. -/
def bfDirect (_selfId : Node) :
    List Node → List (Node × Cost) × List (Node × Node) →
    List (Node × Cost) × List (Node × Node)
  | [], acc => acc
  | n :: rest, (dv, rt) => bfDirect _selfId rest (aset dv n (Cost.fin 1), aset rt n n)

/-- The inner relaxation loop of `apply_bellman_ford` (lines 411–420)
over one neighbor's cached vector (`cost_to_neighbor` is 1). -/
def relaxVec (selfId n : Node) :
    List (Node × Cost) → List (Node × Cost) × List (Node × Node) →
    List (Node × Cost) × List (Node × Node)
  | [], acc => acc
  | (dest, c) :: rest, (dv, rt) =>
    if dest = selfId ∨ c = Cost.inf then relaxVec selfId n rest (dv, rt)
    else
      let total := Cost.add (Cost.fin 1) c
      if total.ltb ((alookup dv dest).getD Cost.inf) then
        relaxVec selfId n rest (aset dv dest total, aset rt dest n)
      else relaxVec selfId n rest (dv, rt)

/-- The outer relaxation loop of `apply_bellman_ford` (lines 404–420):
active neighbors without a cached vector are skipped. -/
def relaxAll (selfId : Node) (nv : List (Node × List (Node × Cost))) :
    List Node → List (Node × Cost) × List (Node × Node) →
    List (Node × Cost) × List (Node × Node)
  | [], acc => acc
  | n :: rest, acc =>
    match alookup nv n with
    | none => relaxAll selfId nv rest acc
    | some vec => relaxAll selfId nv rest (relaxVec selfId n vec acc)

/-- The fresh tables `apply_bellman_ford` computes from scratch
(lines 395–420). -/
def bfTables (st : DVState) : List (Node × Cost) × List (Node × Node) :=
  relaxAll st.nodeId st.neighborVectors st.neighbors
    (bfDirect st.nodeId st.neighbors ([(st.nodeId, Cost.fin 0)], []))

/-- The change detection of `apply_bellman_ford` (lines 422–439):
a destination of the new vector whose cost or next hop differs, or a
destination of the old vector other than self that disappeared. -/
def bfChanged (st : DVState) : Bool :=
  ((bfTables st).1.any fun p =>
    decide ((alookup st.distanceVector p.1).getD Cost.inf ≠ p.2) ||
    decide (alookup st.routingTable p.1 ≠ alookup (bfTables st).2 p.1)) ||
  (st.distanceVector.any fun p =>
    !(akeyMem (bfTables st).1 p.1) && decide (p.1 ≠ st.nodeId))

/-- `apply_bellman_ford` (lines 386–448): commit the fresh tables only
when something changed; return whether they changed. -/
def applyBellmanFord (st : DVState) : DVState × Bool :=
  if bfChanged st then
    ({st with distanceVector := (bfTables st).1, routingTable := (bfTables st).2}, true)
  else (st, false)

/-- The per-neighbor outbound vector of `broadcast_distance_vector`
(lines 333–349): destinations routed through this neighbor are poisoned
to infinity unless they are the neighbor itself; afterwards the direct
entry for the neighbor is (re)written with its true cost. -/
def outboundVector (st : DVState) (neighbor : Node) : List (Node × Cost) :=
  let base := st.distanceVector.foldl (fun acc p =>
    if alookup st.routingTable p.1 = some neighbor ∧ p.1 ≠ neighbor
    then aset acc p.1 Cost.inf else aset acc p.1 p.2) []
  match alookup st.distanceVector neighbor with
  | some c => aset base neighbor c
  | none => base

/-- `broadcast_distance_vector` (lines 331–362): one outbound vector per
active neighbor. -/
def broadcastDistanceVector (st : DVState) : List (Node × List (Node × Cost)) :=
  st.neighbors.map fun n => (n, outboundVector st n)

/-- The state after `process_dv_update` stores the received vector and
refreshes the sender's last-seen entry (lines 372–375). -/
def dvStore (st : DVState) (source : Node) (vec : List (Node × Cost)) : DVState :=
  { st with neighborVectors := aset st.neighborVectors source vec,
            lastSeen := if source ∈ st.lastSeen then st.lastSeen
                        else st.lastSeen ++ [source] }

/-- `process_dv_update` (lines 364–384): store the vector, relax, and
broadcast only when the relaxation reported a change. -/
def processDvUpdate (st : DVState) (source : Node) (vec : List (Node × Cost)) :
    DVState × Bool × List (Node × List (Node × Cost)) :=
  let r := applyBellmanFord (dvStore st source vec)
  (r.1, r.2, if r.2 then broadcastDistanceVector r.1 else [])

/-- The state `_handle_neighbor_failure` (lines 116–147) reaches after
all removals and invalidations, before the relaxation pass and the
broadcast. -/
def failureIntermediate (st : DVState) (dead : Node) : DVState :=
  let nbrs := st.neighbors.erase dead
  let ls := st.lastSeen.erase dead
  let nv := adel st.neighborVectors dead
  let toInval := (st.routingTable.filter fun p => p.2 = dead).map Prod.fst
  let dvrt := toInval.foldl
    (fun (acc : List (Node × Cost) × List (Node × Node)) dest =>
      (aset acc.1 dest Cost.inf, adel acc.2 dest))
    (st.distanceVector, st.routingTable)
  { st with neighbors := nbrs, lastSeen := ls, neighborVectors := nv,
            distanceVector := adel dvrt.1 dead, routingTable := dvrt.2 }

/-- `_handle_neighbor_failure` in distance-vector mode (lines 116–155):
after the invalidations, run a relaxation pass and broadcast
unconditionally (the messages do not depend on the change flag). -/
def handleNeighborFailureDV (st : DVState) (dead : Node) :
    DVState × Bool × List (Node × List (Node × Cost)) :=
  let r := applyBellmanFord (failureIntermediate st dead)
  (r.1, r.2, broadcastDistanceVector r.1)

/-- `_handle_new_neighbor` in distance-vector mode (lines 171–194). -/
def handleNewNeighborDV (st : DVState) (newNbr : Node) :
    DVState × Bool × List (Node × List (Node × Cost)) :=
  let nbrs := if newNbr ∈ st.neighbors then st.neighbors else st.neighbors ++ [newNbr]
  let ls := if newNbr ∈ st.lastSeen then st.lastSeen else st.lastSeen ++ [newNbr]
  let st1 := { st with
    neighbors := nbrs, lastSeen := ls,
    distanceVector := aset st.distanceVector newNbr (Cost.fin 1),
    routingTable := aset st.routingTable newNbr newNbr }
  let r := applyBellmanFord st1
  (r.1, r.2, if r.2 then broadcastDistanceVector r.1 else [])

/-- `__init__` (line 29) plus `_init_distance_vector` (lines 257–268):
distance 0 to self, distance 1 and next hop to each direct neighbor. -/
def initDistanceVector (selfId : Node) (neighbors : List Node) : DVState :=
  let dvrt := bfDirect selfId neighbors ([(selfId, Cost.fin 0)], [])
  { nodeId := selfId, neighbors := neighbors, lastSeen := neighbors,
    neighborVectors := [], distanceVector := dvrt.1, routingTable := dvrt.2 }

/-- The specification's wording of the inner relaxation (§4.2): "for
each `(dest, advertisedCost)` in that vector where `dest≠self` and
`advertisedCost` is finite, compute `candidate = cost(n) +
advertisedCost`; if `candidate < new[dest]` (or `dest` unseen), set
`new[dest]=candidate`, `nextHop[dest]=n`" — with `cost(n) = 1`. -/
def relaxVecSpec (selfId n : Node) :
    List (Node × Cost) → List (Node × Cost) × List (Node × Node) →
    List (Node × Cost) × List (Node × Node)
  | [], acc => acc
  | (dest, advertisedCost) :: rest, (new, nextHop) =>
    if dest ≠ selfId ∧ advertisedCost ≠ Cost.inf then
      let candidate := Cost.add (Cost.fin 1) advertisedCost
      match alookup new dest with
      | none => relaxVecSpec selfId n rest (aset new dest candidate, aset nextHop dest n)
      | some current =>
        if candidate.ltb current then
          relaxVecSpec selfId n rest (aset new dest candidate, aset nextHop dest n)
        else relaxVecSpec selfId n rest (new, nextHop)
    else relaxVecSpec selfId n rest (new, nextHop)

/-- The specification's wording of the outer relaxation: "for each
neighbor `n` with a cached vector". -/
def relaxAllSpec (selfId : Node) (nv : List (Node × List (Node × Cost))) :
    List Node → List (Node × Cost) × List (Node × Node) →
    List (Node × Cost) × List (Node × Node)
  | [], acc => acc
  | n :: rest, acc =>
    if (alookup nv n).isSome then
      relaxAllSpec selfId nv rest (relaxVecSpec selfId n ((alookup nv n).getD []) acc)
    else relaxAllSpec selfId nv rest acc

/-- The fresh tables as the specification describes them. -/
def bfTablesSpec (st : DVState) : List (Node × Cost) × List (Node × Node) :=
  relaxAllSpec st.nodeId st.neighborVectors st.neighbors
    (bfDirect st.nodeId st.neighbors ([(st.nodeId, Cost.fin 0)], []))

theorem relaxVec_eq_spec (selfId n : Node) :
    ∀ (vec : List (Node × Cost)) (acc : List (Node × Cost) × List (Node × Node)),
      relaxVec selfId n vec acc = relaxVecSpec selfId n vec acc := by
  intro vec
  induction vec with
  | nil => intro acc; rfl
  | cons p rest ih =>
    intro acc
    obtain ⟨dest, c⟩ := p
    obtain ⟨dv, rt⟩ := acc
    by_cases hks : dest ≠ selfId ∧ c ≠ Cost.inf
    · rw [relaxVec, if_neg (by tauto), relaxVecSpec, if_pos hks]
      cases hl : alookup dv dest with
      | none =>
        cases c with
        | inf => exact absurd rfl hks.2
        | fin x => simp [Cost.add, Cost.ltb, ih]
      | some current =>
        by_cases hlt : ((Cost.fin 1).add c).ltb current = true
        · simp [hlt, ih]
        · simp [hlt, ih]
    · rw [relaxVec, if_pos (by tauto), relaxVecSpec, if_neg hks]
      exact ih _

theorem relaxAll_eq_spec (selfId : Node) (nv : List (Node × List (Node × Cost))) :
    ∀ (nbrs : List Node) (acc : List (Node × Cost) × List (Node × Node)),
      relaxAll selfId nv nbrs acc = relaxAllSpec selfId nv nbrs acc := by
  intro nbrs
  induction nbrs with
  | nil => intro acc; rfl
  | cons n rest ih =>
    intro acc
    cases hl : alookup nv n with
    | none =>
      rw [relaxAll, hl, relaxAllSpec, if_neg (by rw [hl]; simp)]
      exact ih _
    | some vec =>
      rw [relaxAll, hl, relaxAllSpec, if_pos (by rw [hl]; simp), hl]
      simp only [Option.getD_some]
      rw [relaxVec_eq_spec]
      exact ih _

/-- The change condition as the claim states it: some destination of the
fresh vector whose cost or next hop differs from the previous state, or
some previously present destination other than self that was removed. -/
def ChangedProp (st : DVState) : Prop :=
  (∃ p ∈ (bfTables st).1,
     (alookup st.distanceVector p.1).getD Cost.inf ≠ p.2 ∨
     alookup st.routingTable p.1 ≠ alookup (bfTables st).2 p.1) ∨
  (∃ p ∈ st.distanceVector, akeyMem (bfTables st).1 p.1 = false ∧ p.1 ≠ st.nodeId)

theorem bfChanged_iff (st : DVState) : bfChanged st = true ↔ ChangedProp st := by
  rw [bfChanged, ChangedProp]
  simp [List.any_eq_true, Bool.or_eq_true, Bool.and_eq_true, Bool.not_eq_true']

/-- C3: in distance-vector mode `apply_bellman_ford` recomputes the
vector from scratch exactly as the specification describes (self at 0,
each active neighbor at cost 1 with itself as next hop, then candidate
`1 + advertisedCost` replacing an entry exactly when strictly smaller,
skipping entries for self and infinite advertised costs), commits the
fresh tables exactly when they differ from the previous state (in some
destination's cost or next hop, or by the removal of a previously
present destination other than self), and `process_dv_update`
rebroadcasts exactly when that change condition holds. -/
theorem apply_bellman_ford_correct (st : DVState) :
    bfTables st = bfTablesSpec st ∧
    (bfChanged st = true ↔ ChangedProp st) ∧
    applyBellmanFord st =
      (if bfChanged st then
        { st with distanceVector := (bfTables st).1, routingTable := (bfTables st).2 }
       else st, bfChanged st) ∧
    (∀ (source : Node) (vec : List (Node × Cost)),
      (processDvUpdate st source vec).2.1 = bfChanged (dvStore st source vec) ∧
      (processDvUpdate st source vec).2.2 =
        (if bfChanged (dvStore st source vec) then
          broadcastDistanceVector (applyBellmanFord (dvStore st source vec)).1
         else [])) := by
  refine ⟨?_, bfChanged_iff st, ?_, ?_⟩
  · rw [bfTables, bfTablesSpec, relaxAll_eq_spec]
  · by_cases h : bfChanged st = true
    · simp [applyBellmanFord, h]
    · rw [Bool.not_eq_true] at h
      simp [applyBellmanFord, h]
  · intro source vec
    by_cases h : bfChanged (dvStore st source vec) = true
    · simp [processDvUpdate, applyBellmanFord, h]
    · rw [Bool.not_eq_true] at h
      simp [processDvUpdate, applyBellmanFord, h]

theorem alookup_build (f : Node × Cost → Cost) :
    ∀ (l acc : List (Node × Cost)), (l.map Prod.fst).Nodup →
      (∀ p ∈ l, alookup acc p.1 = none) → ∀ k,
      alookup (l.foldl (fun a p => aset a p.1 (f p)) acc) k =
        match alookup l k with
        | some c => some (f (k, c))
        | none => alookup acc k := by
  intro l
  induction l with
  | nil => intro acc _ _ k; rfl
  | cons p t ih =>
    intro acc hnd hacc k
    obtain ⟨a, b⟩ := p
    rw [List.foldl_cons]
    simp only [List.map_cons, List.nodup_cons] at hnd
    have hstep : ∀ q ∈ t, alookup (aset acc a (f (a, b))) q.1 = none := by
      intro q hq
      have hqa : a ≠ q.1 := by
        intro heq
        exact hnd.1 (heq ▸ List.mem_map_of_mem Prod.fst hq)
      rw [alookup_aset_ne _ _ _ _ hqa]
      exact hacc q (List.mem_cons_of_mem _ hq)
    rw [ih (aset acc a (f (a, b))) hnd.2 hstep k]
    by_cases hak : a = k
    · subst hak
      have hta : alookup t a = none := by
        apply alookup_none_of_forall
        intro q hq hq1
        exact hnd.1 (hq1 ▸ List.mem_map_of_mem Prod.fst hq)
      rw [hta, alookup_aset_self]
      simp [alookup]
    · rw [alookup_cons, if_neg hak]
      cases htk : alookup t k with
      | some c => rfl
      | none => rw [alookup_aset_ne _ _ _ _ hak]

/-- C4: the outbound vector `broadcast_distance_vector` constructs for
neighbor `N` advertises infinite cost for exactly those destinations of
the distance vector whose next hop is `N` other than `N` itself, and the
true cost for every other destination of the distance vector; nothing
else is advertised. -/
theorem broadcast_poison_reverse (st : DVState) (N dest : Node)
    (hnd : (st.distanceVector.map Prod.fst).Nodup) :
    alookup (outboundVector st N) dest =
      match alookup st.distanceVector dest with
      | some c => some (if alookup st.routingTable dest = some N ∧ dest ≠ N
                        then Cost.inf else c)
      | none => none := by
  have hfun : (fun (acc : List (Node × Cost)) (p : Node × Cost) =>
      if alookup st.routingTable p.1 = some N ∧ p.1 ≠ N then aset acc p.1 Cost.inf
      else aset acc p.1 p.2) =
      (fun acc p => aset acc p.1
        (if alookup st.routingTable p.1 = some N ∧ p.1 ≠ N then Cost.inf else p.2)) := by
    funext acc p
    by_cases hc : alookup st.routingTable p.1 = some N ∧ p.1 ≠ N
    · rw [if_pos hc, if_pos hc]
    · rw [if_neg hc, if_neg hc]
  have hbase := alookup_build
    (fun p => if alookup st.routingTable p.1 = some N ∧ p.1 ≠ N then Cost.inf else p.2)
    st.distanceVector [] hnd (fun p _ => rfl)
  simp only [outboundVector, hfun]
  cases hN : alookup st.distanceVector N with
  | none =>
    rw [hbase dest]
    cases hdest : alookup st.distanceVector dest with
    | none => rfl
    | some c => rfl
  | some cN =>
    by_cases hdN : dest = N
    · subst hdN
      rw [alookup_aset_self, hN]
      have hno : ¬(alookup st.routingTable dest = some dest ∧ dest ≠ dest) :=
        fun hcon => hcon.2 rfl
      simp [hno]
    · rw [alookup_aset_ne _ _ _ _ (Ne.symm hdN), hbase dest]
      cases hdest : alookup st.distanceVector dest with
      | none => rfl
      | some c => rfl

/-- Witness for C4: a node "B" routing to "C" through "A" poisons "C"
in the vector it sends to "A", and advertises "A" itself truthfully. -/
theorem broadcast_poison_reverse_witness :
    (alookup (outboundVector
        ⟨"B", ["A", "C"], ["A", "C"], [],
          [("B", Cost.fin 0), ("A", Cost.fin 1), ("C", Cost.fin 2)],
          [("A", "A"), ("C", "A")]⟩ "A") "C" =
      match alookup [("B", Cost.fin 0), ("A", Cost.fin 1), ("C", Cost.fin 2)] "C" with
      | some c => some (if alookup [("A", "A"), ("C", "A")] "C" = some "A" ∧ "C" ≠ "A"
                        then Cost.inf else c)
      | none => none) ∧
    alookup (outboundVector
        ⟨"B", ["A", "C"], ["A", "C"], [],
          [("B", Cost.fin 0), ("A", Cost.fin 1), ("C", Cost.fin 2)],
          [("A", "A"), ("C", "A")]⟩ "A") "C" = some Cost.inf :=
  ⟨broadcast_poison_reverse
      ⟨"B", ["A", "C"], ["A", "C"], [],
        [("B", Cost.fin 0), ("A", Cost.fin 1), ("C", Cost.fin 2)],
        [("A", "A"), ("C", "A")]⟩ "A" "C" (by decide), by rfl⟩

theorem bfDirect_lookup_not_mem (selfId : Node) :
    ∀ (nbrs : List Node) (dv : List (Node × Cost)) (rt : List (Node × Node)) (k : Node),
      k ∉ nbrs →
      alookup (bfDirect selfId nbrs (dv, rt)).1 k = alookup dv k ∧
      alookup (bfDirect selfId nbrs (dv, rt)).2 k = alookup rt k := by
  intro nbrs
  induction nbrs with
  | nil => intro dv rt k _; exact ⟨rfl, rfl⟩
  | cons n rest ih =>
    intro dv rt k hk
    have hkn : n ≠ k := fun h => hk (h ▸ List.mem_cons_self _ _)
    have hrest := ih (aset dv n (Cost.fin 1)) (aset rt n n) k
      (fun h => hk (List.mem_cons_of_mem _ h))
    rw [bfDirect]
    exact ⟨by rw [hrest.1, alookup_aset_ne _ _ _ _ hkn],
           by rw [hrest.2, alookup_aset_ne _ _ _ _ hkn]⟩

theorem relaxVec_lookup_self (selfId n : Node) :
    ∀ (vec : List (Node × Cost)) (dv : List (Node × Cost)) (rt : List (Node × Node)),
      alookup (relaxVec selfId n vec (dv, rt)).1 selfId = alookup dv selfId ∧
      alookup (relaxVec selfId n vec (dv, rt)).2 selfId = alookup rt selfId := by
  intro vec
  induction vec with
  | nil => intro dv rt; exact ⟨rfl, rfl⟩
  | cons p rest ih =>
    intro dv rt
    obtain ⟨dest, c⟩ := p
    by_cases h1 : dest = selfId ∨ c = Cost.inf
    · rw [relaxVec, if_pos h1]
      exact ih dv rt
    · rw [relaxVec, if_neg h1]
      have hds : dest ≠ selfId := fun h => h1 (Or.inl h)
      by_cases hlt : ((Cost.fin 1).add c).ltb ((alookup dv dest).getD Cost.inf) = true
      · rw [if_pos hlt]
        have hrest := ih (aset dv dest ((Cost.fin 1).add c)) (aset rt dest n)
        exact ⟨by rw [hrest.1, alookup_aset_ne _ _ _ _ hds],
               by rw [hrest.2, alookup_aset_ne _ _ _ _ hds]⟩
      · rw [if_neg hlt]
        exact ih dv rt

theorem relaxAll_lookup_self (selfId : Node) (nv : List (Node × List (Node × Cost))) :
    ∀ (nbrs : List Node) (dv : List (Node × Cost)) (rt : List (Node × Node)),
      alookup (relaxAll selfId nv nbrs (dv, rt)).1 selfId = alookup dv selfId ∧
      alookup (relaxAll selfId nv nbrs (dv, rt)).2 selfId = alookup rt selfId := by
  intro nbrs
  induction nbrs with
  | nil => intro dv rt; exact ⟨rfl, rfl⟩
  | cons n rest ih =>
    intro dv rt
    cases hl : alookup nv n with
    | none =>
      rw [relaxAll, hl]
      exact ih dv rt
    | some vec =>
      rw [relaxAll, hl]
      have hv := relaxVec_lookup_self selfId n vec dv rt
      have hrest := ih (relaxVec selfId n vec (dv, rt)).1 (relaxVec selfId n vec (dv, rt)).2
      exact ⟨by rw [hrest.1, hv.1], by rw [hrest.2, hv.2]⟩

theorem bfTables_self (st : DVState) (h : st.nodeId ∉ st.neighbors) :
    alookup (bfTables st).1 st.nodeId = some (Cost.fin 0) ∧
    alookup (bfTables st).2 st.nodeId = none := by
  rw [bfTables]
  have hd := bfDirect_lookup_not_mem st.nodeId st.neighbors
    [(st.nodeId, Cost.fin 0)] [] st.nodeId h
  have hr := relaxAll_lookup_self st.nodeId st.neighborVectors st.neighbors
    (bfDirect st.nodeId st.neighbors ([(st.nodeId, Cost.fin 0)], [])).1
    (bfDirect st.nodeId st.neighbors ([(st.nodeId, Cost.fin 0)], [])).2
  constructor
  · rw [hr.1, hd.1]
    simp [alookup]
  · rw [hr.2, hd.2]
    rfl

theorem applyBellmanFord_self (st : DVState) (h : st.nodeId ∉ st.neighbors) :
    alookup (applyBellmanFord st).1.distanceVector st.nodeId = some (Cost.fin 0) ∧
    alookup (applyBellmanFord st).1.routingTable st.nodeId = none := by
  have hbt := bfTables_self st h
  by_cases hc : bfChanged st = true
  · rw [applyBellmanFord, if_pos hc]
    exact hbt
  · rw [applyBellmanFord, if_neg hc]
    rw [Bool.not_eq_true, bfChanged, Bool.or_eq_false_iff] at hc
    have hmem := alookup_some_mem _ _ _ hbt.1
    rw [List.any_eq_false] at hc
    have h1 := hc.1 _ hmem
    rw [Bool.not_eq_true] at h1
    simp only [Bool.or_eq_false_iff, decide_eq_false_iff_not, not_not] at h1
    constructor
    · cases hl : alookup st.distanceVector st.nodeId with
      | none => rw [hl] at h1; simpa using h1.1
      | some x =>
        rw [hl] at h1
        obtain ⟨h1a, _⟩ := h1
        simp only [Option.getD_some] at h1a
        rw [h1a]
    · rw [h1.2, hbt.2]

/-- C6: in distance-vector mode the distance vector maps the node's own
id to exactly 0 and the routing table has no entry for the node's own
id, after initialization and after each of `process_dv_update`,
`_handle_neighbor_failure` and `_handle_new_neighbor` completes
(assuming the node is not its own neighbor, and a discovered neighbor is
not the node itself). -/
theorem dv_self_invariant :
    (∀ (selfId : Node) (nbrs : List Node), selfId ∉ nbrs →
      alookup (initDistanceVector selfId nbrs).distanceVector selfId = some (Cost.fin 0) ∧
      alookup (initDistanceVector selfId nbrs).routingTable selfId = none) ∧
    (∀ (st : DVState) (source : Node) (vec : List (Node × Cost)),
      st.nodeId ∉ st.neighbors →
      alookup (processDvUpdate st source vec).1.distanceVector st.nodeId =
        some (Cost.fin 0) ∧
      alookup (processDvUpdate st source vec).1.routingTable st.nodeId = none) ∧
    (∀ (st : DVState) (dead : Node), st.nodeId ∉ st.neighbors →
      alookup (handleNeighborFailureDV st dead).1.distanceVector st.nodeId =
        some (Cost.fin 0) ∧
      alookup (handleNeighborFailureDV st dead).1.routingTable st.nodeId = none) ∧
    (∀ (st : DVState) (newNbr : Node), st.nodeId ∉ st.neighbors →
      newNbr ≠ st.nodeId →
      alookup (handleNewNeighborDV st newNbr).1.distanceVector st.nodeId =
        some (Cost.fin 0) ∧
      alookup (handleNewNeighborDV st newNbr).1.routingTable st.nodeId = none) := by
  refine ⟨?_, ?_, ?_, ?_⟩
  · intro selfId nbrs h
    have hd := bfDirect_lookup_not_mem selfId nbrs [(selfId, Cost.fin 0)] [] selfId h
    exact ⟨by rw [show (initDistanceVector selfId nbrs).distanceVector =
        (bfDirect selfId nbrs ([(selfId, Cost.fin 0)], [])).1 from rfl, hd.1]; simp [alookup],
      by rw [show (initDistanceVector selfId nbrs).routingTable =
        (bfDirect selfId nbrs ([(selfId, Cost.fin 0)], [])).2 from rfl, hd.2]; rfl⟩
  · intro st source vec h
    exact applyBellmanFord_self (dvStore st source vec) h
  · intro st dead h
    have h' : (failureIntermediate st dead).nodeId ∉ (failureIntermediate st dead).neighbors :=
      fun hmem => h (List.mem_of_mem_erase hmem)
    exact applyBellmanFord_self (failureIntermediate st dead) h'
  · intro st newNbr h hne
    have h' : st.nodeId ∉
        (if newNbr ∈ st.neighbors then st.neighbors else st.neighbors ++ [newNbr]) := by
      by_cases hm : newNbr ∈ st.neighbors
      · rw [if_pos hm]; exact h
      · rw [if_neg hm]
        intro hmem
        rcases List.mem_append.1 hmem with hmem | hmem
        · exact h hmem
        · rw [List.mem_singleton] at hmem
          exact hne hmem.symm
    exact applyBellmanFord_self _ h'

/-- Witness for C6 at concrete inputs. -/
theorem dv_self_invariant_witness :
    (alookup (initDistanceVector "A" ["B", "C"]).distanceVector "A" = some (Cost.fin 0) ∧
      alookup (initDistanceVector "A" ["B", "C"]).routingTable "A" = none) ∧
    (alookup (processDvUpdate (initDistanceVector "A" ["B", "C"]) "B"
        [("B", Cost.fin 0), ("C", Cost.fin 1)]).1.distanceVector "A" = some (Cost.fin 0) ∧
      alookup (processDvUpdate (initDistanceVector "A" ["B", "C"]) "B"
        [("B", Cost.fin 0), ("C", Cost.fin 1)]).1.routingTable "A" = none) ∧
    (alookup (handleNeighborFailureDV (initDistanceVector "A" ["B", "C"])
        "B").1.distanceVector "A" = some (Cost.fin 0) ∧
      alookup (handleNeighborFailureDV (initDistanceVector "A" ["B", "C"])
        "B").1.routingTable "A" = none) ∧
    (alookup (handleNewNeighborDV (initDistanceVector "A" ["B", "C"])
        "D").1.distanceVector "A" = some (Cost.fin 0) ∧
      alookup (handleNewNeighborDV (initDistanceVector "A" ["B", "C"])
        "D").1.routingTable "A" = none) :=
  ⟨dv_self_invariant.1 "A" ["B", "C"] (by decide),
   dv_self_invariant.2.1 (initDistanceVector "A" ["B", "C"]) "B"
     [("B", Cost.fin 0), ("C", Cost.fin 1)] (by decide),
   dv_self_invariant.2.2.1 (initDistanceVector "A" ["B", "C"]) "B" (by decide),
   dv_self_invariant.2.2.2 (initDistanceVector "A" ["B", "C"]) "D" (by decide) (by decide)⟩

theorem invalFold_preserve :
    ∀ (l : List Node) (dv : List (Node × Cost)) (rt : List (Node × Node)) (dest : Node),
      alookup dv dest = some Cost.inf → alookup rt dest = none →
      alookup (l.foldl (fun (acc : List (Node × Cost) × List (Node × Node)) d =>
        (aset acc.1 d Cost.inf, adel acc.2 d)) (dv, rt)).1 dest = some Cost.inf ∧
      alookup (l.foldl (fun (acc : List (Node × Cost) × List (Node × Node)) d =>
        (aset acc.1 d Cost.inf, adel acc.2 d)) (dv, rt)).2 dest = none := by
  intro l
  induction l with
  | nil => intro dv rt dest h1 h2; exact ⟨h1, h2⟩
  | cons d rest ih =>
    intro dv rt dest h1 h2
    rw [List.foldl_cons]
    by_cases hd : d = dest
    · subst hd
      exact ih _ _ _ (alookup_aset_self _ _ _) (alookup_adel_self _ _)
    · exact ih _ _ _ (by rw [alookup_aset_ne _ _ _ _ hd]; exact h1)
        (by rw [alookup_adel_ne _ _ _ hd]; exact h2)

theorem invalFold_hits :
    ∀ (l : List Node) (dv : List (Node × Cost)) (rt : List (Node × Node)) (dest : Node),
      dest ∈ l →
      alookup (l.foldl (fun (acc : List (Node × Cost) × List (Node × Node)) d =>
        (aset acc.1 d Cost.inf, adel acc.2 d)) (dv, rt)).1 dest = some Cost.inf ∧
      alookup (l.foldl (fun (acc : List (Node × Cost) × List (Node × Node)) d =>
        (aset acc.1 d Cost.inf, adel acc.2 d)) (dv, rt)).2 dest = none := by
  intro l
  induction l with
  | nil => intro dv rt dest h; simp at h
  | cons d rest ih =>
    intro dv rt dest h
    rw [List.foldl_cons]
    by_cases hd : d = dest
    · subst hd
      exact invalFold_preserve rest _ _ _ (alookup_aset_self _ _ _) (alookup_adel_self _ _)
    · rcases List.mem_cons.1 h with h | h
      · exact absurd h.symm hd
      · exact ih _ _ _ h

/-- C5: on loss of neighbor `D` in distance-vector mode the failure
handler removes `D` from the neighbor-vector cache and from the distance
vector, removes every destination routed through `D` from the routing
table while marking its distance-vector entry infinite (all before any
broadcast), then runs one relaxation pass and broadcasts the resulting
vector unconditionally — the outbound messages are computed from the
post-relaxation state with no dependence on the change flag. -/
theorem handle_neighbor_failure_behavior (st : DVState) (dead : Node) :
    alookup (failureIntermediate st dead).neighborVectors dead = none ∧
    alookup (failureIntermediate st dead).distanceVector dead = none ∧
    (∀ dest, alookup st.routingTable dest = some dead →
      alookup (failureIntermediate st dead).routingTable dest = none ∧
      (dest ≠ dead →
        alookup (failureIntermediate st dead).distanceVector dest = some Cost.inf)) ∧
    handleNeighborFailureDV st dead =
      ((applyBellmanFord (failureIntermediate st dead)).1,
       (applyBellmanFord (failureIntermediate st dead)).2,
       broadcastDistanceVector (applyBellmanFord (failureIntermediate st dead)).1) := by
  refine ⟨alookup_adel_self _ _, alookup_adel_self _ _, ?_, rfl⟩
  intro dest hdest
  have hpmem : (dest, dead) ∈ st.routingTable := alookup_some_mem _ _ _ hdest
  have hfmem : (dest, dead) ∈ st.routingTable.filter fun p => p.2 = dead := by
    rw [List.mem_filter]
    exact ⟨hpmem, by simp⟩
  have hmap : dest ∈ (st.routingTable.filter fun p => p.2 = dead).map Prod.fst :=
    List.mem_map_of_mem Prod.fst hfmem
  have hfold := invalFold_hits _ st.distanceVector st.routingTable dest hmap
  refine ⟨hfold.2, ?_⟩
  intro hne
  show alookup (adel _ dead) dest = some Cost.inf
  rw [alookup_adel_ne _ _ _ (Ne.symm hne)]
  exact hfold.1

/-- Witness for C5 at a concrete input: node "A" routes "X" through its
neighbor "B"; when "B" dies, "X" is dropped from the routing table and
marked infinite in the distance vector before the broadcast. -/
theorem handle_neighbor_failure_behavior_witness :
    alookup (failureIntermediate
      ⟨"A", ["B"], ["B"], [],
        [("A", Cost.fin 0), ("B", Cost.fin 1), ("X", Cost.fin 2)],
        [("B", "B"), ("X", "B")]⟩ "B").routingTable "X" = none ∧
    alookup (failureIntermediate
      ⟨"A", ["B"], ["B"], [],
        [("A", Cost.fin 0), ("B", Cost.fin 1), ("X", Cost.fin 2)],
        [("B", "B"), ("X", "B")]⟩ "B").distanceVector "X" = some Cost.inf :=
  ⟨((handle_neighbor_failure_behavior
      ⟨"A", ["B"], ["B"], [],
        [("A", Cost.fin 0), ("B", Cost.fin 1), ("X", Cost.fin 2)],
        [("B", "B"), ("X", "B")]⟩ "B").2.2.1 "X" (by rfl)).1,
   ((handle_neighbor_failure_behavior
      ⟨"A", ["B"], ["B"], [],
        [("A", Cost.fin 0), ("B", Cost.fin 1), ("X", Cost.fin 2)],
        [("B", "B"), ("X", "B")]⟩ "B").2.2.1 "X" (by rfl)).2 (by decide)⟩

/-- C9 counterexample: a neighbor can be absent from the active
neighbor list, the last-seen map and the neighbor-vector cache while a
stale entry for it remains in the distance vector; re-invoking the
failure handler then deletes that entry, so the handler is not a no-op
under the claim's hypotheses. -/
theorem handle_failure_not_idempotent :
    ("D" ∉ (⟨"A", [], [], [], [("A", Cost.fin 0), ("D", Cost.fin 5)], []⟩ :
      DVState).neighbors) ∧
    ("D" ∉ (⟨"A", [], [], [], [("A", Cost.fin 0), ("D", Cost.fin 5)], []⟩ :
      DVState).lastSeen) ∧
    alookup (⟨"A", [], [], [], [("A", Cost.fin 0), ("D", Cost.fin 5)], []⟩ :
      DVState).neighborVectors "D" = none ∧
    (handleNeighborFailureDV
      ⟨"A", [], [], [], [("A", Cost.fin 0), ("D", Cost.fin 5)], []⟩ "D").1 ≠
      ⟨"A", [], [], [], [("A", Cost.fin 0), ("D", Cost.fin 5)], []⟩ := by
  refine ⟨by decide, by decide, by rfl, by decide⟩

/-- C9 (amended): the failure handler is a no-op on the node's state for
a neighbor that has been fully removed — absent from the active neighbor
list, the last-seen map, the neighbor-vector cache *and* the distance
vector, with no routing entry through it — provided the state is stable
under a relaxation pass (as it is after the first removal completed). -/
theorem handle_failure_idempotent (st : DVState) (dead : Node)
    (h1 : dead ∉ st.neighbors) (h2 : dead ∉ st.lastSeen)
    (h3 : alookup st.neighborVectors dead = none)
    (h4 : alookup st.distanceVector dead = none)
    (h5 : ∀ p ∈ st.routingTable, p.2 ≠ dead)
    (h6 : bfChanged st = false) :
    (handleNeighborFailureDV st dead).1 = st := by
  have hfi : failureIntermediate st dead = st := by
    have e1 : st.neighbors.erase dead = st.neighbors := List.erase_of_not_mem h1
    have e2 : st.lastSeen.erase dead = st.lastSeen := List.erase_of_not_mem h2
    have e3 : adel st.neighborVectors dead = st.neighborVectors := adel_of_not_mem _ _ h3
    have e4 : (st.routingTable.filter fun p => p.2 = dead) = [] := by
      rw [List.filter_eq_nil_iff]
      intro p hp
      simp [h5 p hp]
    have e5 : adel st.distanceVector dead = st.distanceVector := adel_of_not_mem _ _ h4
    rw [failureIntermediate]
    simp only [e1, e2, e3, e4, List.map_nil, List.foldl_nil, e5]
  show (applyBellmanFord (failureIntermediate st dead)).1 = st
  rw [hfi, applyBellmanFord, if_neg (by rw [h6]; simp)]

/-- Witness for C9 (amended) at a concrete input. -/
theorem handle_failure_idempotent_witness :
    (handleNeighborFailureDV
      ⟨"A", ["B"], ["B"], [], [("A", Cost.fin 0), ("B", Cost.fin 1)], [("B", "B")]⟩
      "C").1 =
      ⟨"A", ["B"], ["B"], [], [("A", Cost.fin 0), ("B", Cost.fin 1)], [("B", "B")]⟩ :=
  handle_failure_idempotent
    ⟨"A", ["B"], ["B"], [], [("A", Cost.fin 0), ("B", Cost.fin 1)], [("B", "B")]⟩
    "C" (by decide) (by decide) (by rfl) (by rfl) (by decide) (by decide)

/-! ## RouterNode, link-state mode (src/router.py, lines 473–523)

`process_lsa` is embedded as a pure function from the link-state state
(node id, active neighbors, link-state database) and an inbound LSA to
the new state, the `learned_something_new` flag (which also decides the
routing-table recomputation), and the list of neighbors the LSA is
forwarded to.
-/

/-- Link-state mode state of a router node. -/
structure LSState where
  nodeId : Node
  neighbors : List Node
  linkStateDb : List (Node × (Int × List Node))
deriving DecidableEq, Repr

/-- An inbound link-state advertisement. -/
structure LSA where
  source : Node
  seqNum : Int
  nbrs : List Node
deriving DecidableEq, Repr

/-- `is_new_source_info` (lines 485–486): the source is unknown or the
sequence number strictly exceeds the stored one. -/
def lsaIsNew (st : LSState) (lsa : LSA) : Bool :=
  match alookup st.linkStateDb lsa.source with
  | none => true
  | some e => decide (e.1 < lsa.seqNum)

/-- The database after the conditional source-entry update (lines
492–496). -/
def lsaDb1 (st : LSState) (lsa : LSA) : List (Node × (Int × List Node)) :=
  if lsaIsNew st lsa then aset st.linkStateDb lsa.source (lsa.seqNum, lsa.nbrs)
  else st.linkStateDb

/-- The neighbor-learning loop of `process_lsa` (lines 500–512): every
node named in the LSA that is not this node and not yet in the database
gets a placeholder entry (sequence number -1, reverse edge to the
advertiser) and sets the learned flag. -/
def learnNbrs (selfId source : Node) :
    List Node → List (Node × (Int × List Node)) × Bool →
    List (Node × (Int × List Node)) × Bool
  | [], acc => acc
  | nb :: rest, (db, learned) =>
    if nb = selfId then learnNbrs selfId source rest (db, learned)
    else if akeyMem db nb then learnNbrs selfId source rest (db, learned)
    else learnNbrs selfId source rest (aset db nb ((-1 : Int), [source]), true)

/-- `process_lsa` (lines 473–523): returns the new state, the
`learned_something_new` flag (= routing table recomputed = LSA
forwarded), and the neighbors the LSA is forwarded to. -/
def processLsa (st : LSState) (lsa : LSA) : LSState × Bool × List Node :=
  if (learnNbrs st.nodeId lsa.source lsa.nbrs (lsaDb1 st lsa, lsaIsNew st lsa)).2 then
    ({st with linkStateDb :=
        (learnNbrs st.nodeId lsa.source lsa.nbrs (lsaDb1 st lsa, lsaIsNew st lsa)).1},
     true, st.neighbors.filter fun n => n ≠ lsa.source)
  else
    ({st with linkStateDb :=
        (learnNbrs st.nodeId lsa.source lsa.nbrs (lsaDb1 st lsa, lsaIsNew st lsa)).1},
     false, [])

theorem alookup_eq_none_forall {α : Type} (l : List (Node × α)) (k : Node)
    (h : alookup l k = none) : ∀ p ∈ l, p.1 ≠ k := by
  induction l with
  | nil => intro p hp; simp at hp
  | cons q t ih =>
    obtain ⟨a, b⟩ := q
    intro p hp
    by_cases ha : a = k
    · simp [alookup, ha] at h
    · rcases List.mem_cons.1 hp with hp | hp
      · subst hp; exact ha
      · simp only [alookup_cons, if_neg ha] at h
        exact ih h p hp

theorem akeyMem_false_iff {α : Type} (l : List (Node × α)) (k : Node) :
    akeyMem l k = false ↔ alookup l k = none := by
  constructor
  · intro h
    apply alookup_none_of_forall
    intro p hp
    rw [akeyMem, List.any_eq_false] at h
    simpa using h p hp
  · intro h
    rw [akeyMem, List.any_eq_false]
    intro p hp
    simpa using alookup_eq_none_forall l k h p hp

theorem akeyMem_aset_of_mem {α : Type} (l : List (Node × α)) (n k : Node) (v : α)
    (h : akeyMem l k = true) : akeyMem (aset l n v) k = true := by
  have hl : alookup l k ≠ none := by
    intro hn
    rw [← akeyMem_false_iff] at hn
    rw [h] at hn
    exact Bool.noConfusion hn
  by_cases hnk : n = k
  · subst hnk
    cases hm : akeyMem (aset l n v) n with
    | false =>
      rw [akeyMem_false_iff] at hm
      rw [alookup_aset_self] at hm
      exact absurd hm (by simp)
    | true => rfl
  · cases hm : akeyMem (aset l n v) k with
    | false =>
      rw [akeyMem_false_iff, alookup_aset_ne _ _ _ _ hnk] at hm
      exact absurd hm hl
    | true => rfl

theorem akeyMem_true_of_alookup_some {α : Type} (l : List (Node × α)) (k : Node) (v : α)
    (h : alookup l k = some v) : akeyMem l k = true := by
  cases hm : akeyMem l k with
  | false =>
    rw [akeyMem_false_iff] at hm
    rw [hm] at h
    exact Option.noConfusion h
  | true => rfl

theorem learnNbrs_true (selfId source : Node) :
    ∀ (nbrs : List Node) (db : List (Node × (Int × List Node))),
      (learnNbrs selfId source nbrs (db, true)).2 = true := by
  intro nbrs
  induction nbrs with
  | nil => intro db; rfl
  | cons nb rest ih =>
    intro db
    rw [learnNbrs]
    by_cases h1 : nb = selfId
    · rw [if_pos h1]; exact ih db
    · rw [if_neg h1]
      by_cases h2 : akeyMem db nb = true
      · rw [if_pos h2]; exact ih db
      · rw [if_neg h2]; exact ih _

theorem learnNbrs_false_unchanged (selfId source : Node) :
    ∀ (nbrs : List Node) (db : List (Node × (Int × List Node))),
      (learnNbrs selfId source nbrs (db, false)).2 = false →
      (learnNbrs selfId source nbrs (db, false)).1 = db := by
  intro nbrs
  induction nbrs with
  | nil => intro db _; rfl
  | cons nb rest ih =>
    intro db h
    rw [learnNbrs] at h ⊢
    by_cases h1 : nb = selfId
    · rw [if_pos h1] at h ⊢; exact ih db h
    · rw [if_neg h1] at h ⊢
      by_cases h2 : akeyMem db nb = true
      · rw [if_pos h2] at h ⊢; exact ih db h
      · rw [if_neg h2] at h
        rw [learnNbrs_true] at h
        exact Bool.noConfusion h

theorem learnNbrs_false_iff (selfId source : Node) :
    ∀ (nbrs : List Node) (db : List (Node × (Int × List Node))),
      ((learnNbrs selfId source nbrs (db, false)).2 = true ↔
        ∃ nb ∈ nbrs, nb ≠ selfId ∧ akeyMem db nb = false) := by
  intro nbrs
  induction nbrs with
  | nil => intro db; simp [learnNbrs]
  | cons nb rest ih =>
    intro db
    rw [learnNbrs]
    by_cases h1 : nb = selfId
    · rw [if_pos h1, ih db]
      subst h1
      constructor
      · rintro ⟨x, hx, hxs, hxm⟩
        exact ⟨x, List.mem_cons_of_mem _ hx, hxs, hxm⟩
      · rintro ⟨x, hx, hxs, hxm⟩
        rcases List.mem_cons.1 hx with hx | hx
        · exact absurd hx hxs
        · exact ⟨x, hx, hxs, hxm⟩
    · rw [if_neg h1]
      by_cases h2 : akeyMem db nb = true
      · rw [if_pos h2, ih db]
        constructor
        · rintro ⟨x, hx, hxs, hxm⟩
          exact ⟨x, List.mem_cons_of_mem _ hx, hxs, hxm⟩
        · rintro ⟨x, hx, hxs, hxm⟩
          rcases List.mem_cons.1 hx with hx | hx
          · subst hx
            rw [h2] at hxm
            exact Bool.noConfusion hxm
          · exact ⟨x, hx, hxs, hxm⟩
      · rw [if_neg h2, learnNbrs_true]
        rw [Bool.not_eq_true] at h2
        exact ⟨fun _ => ⟨nb, List.mem_cons_self _ _, h1, h2⟩, fun _ => rfl⟩

theorem learnNbrs_lookup_mem (selfId source : Node) :
    ∀ (nbrs : List Node) (db : List (Node × (Int × List Node))) (b : Bool) (k : Node),
      akeyMem db k = true →
      alookup (learnNbrs selfId source nbrs (db, b)).1 k = alookup db k := by
  intro nbrs
  induction nbrs with
  | nil => intro db b k _; rfl
  | cons nb rest ih =>
    intro db b k hk
    rw [learnNbrs]
    by_cases h1 : nb = selfId
    · rw [if_pos h1]; exact ih db b k hk
    · rw [if_neg h1]
      by_cases h2 : akeyMem db nb = true
      · rw [if_pos h2]; exact ih db b k hk
      · rw [if_neg h2]
        have hnk : nb ≠ k := by
          intro heq
          rw [heq, hk] at h2
          exact h2 rfl
        rw [ih _ true k (akeyMem_aset_of_mem db nb k _ hk),
          alookup_aset_ne _ _ _ _ hnk]

/-- C2 counterexample: a stale LSA (sequence number 3 against stored
sequence number 5 for source "B") that names a node "X" unknown to the
database is not dropped: the database gains a placeholder for "X" and
the LSA is forwarded to neighbor "C". -/
theorem process_lsa_stale_forwarded :
    lsaIsNew ⟨"A", ["B", "C"], [("A", (0, ["B", "C"])), ("B", (5, ["A"]))]⟩
      ⟨"B", 3, ["A", "X"]⟩ = false ∧
    (processLsa ⟨"A", ["B", "C"], [("A", (0, ["B", "C"])), ("B", (5, ["A"]))]⟩
      ⟨"B", 3, ["A", "X"]⟩).1.linkStateDb ≠
      [("A", (0, ["B", "C"])), ("B", (5, ["A"]))] ∧
    (processLsa ⟨"A", ["B", "C"], [("A", (0, ["B", "C"])), ("B", (5, ["A"]))]⟩
      ⟨"B", 3, ["A", "X"]⟩).2.2 = ["C"] := by
  refine ⟨by rfl, by decide, by rfl⟩

/-- C2 (amended): a stale LSA (source known with a stored sequence
number at least the LSA's) never changes the stored entry for its
source, and is dropped — state unchanged, nothing forwarded — unless it
names a node other than the receiver that is absent from the database,
in which case placeholders are added, routes are recomputed and the LSA
is forwarded to all neighbors except the source.  An LSA whose source is
unknown or whose sequence number strictly exceeds the stored one is
always accepted: the source entry is replaced and the LSA is forwarded
to all neighbors except the source. -/
theorem process_lsa_amended (st : LSState) (lsa : LSA) :
    (lsaIsNew st lsa = false →
      alookup (processLsa st lsa).1.linkStateDb lsa.source =
        alookup st.linkStateDb lsa.source ∧
      ((processLsa st lsa).2.1 = true ↔
        ∃ nb ∈ lsa.nbrs, nb ≠ st.nodeId ∧ akeyMem st.linkStateDb nb = false) ∧
      ((processLsa st lsa).2.1 = false →
        (processLsa st lsa).1 = st ∧ (processLsa st lsa).2.2 = [])) ∧
    (lsaIsNew st lsa = true →
      alookup (processLsa st lsa).1.linkStateDb lsa.source =
        some (lsa.seqNum, lsa.nbrs) ∧
      (processLsa st lsa).2.1 = true ∧
      (processLsa st lsa).2.2 = st.neighbors.filter fun n => n ≠ lsa.source) := by
  constructor
  · intro hstale
    have hdb1 : lsaDb1 st lsa = st.linkStateDb := by
      rw [lsaDb1, if_neg (by rw [hstale]; simp)]
    have hsrc : akeyMem st.linkStateDb lsa.source = true := by
      cases hs : alookup st.linkStateDb lsa.source with
      | none =>
        rw [lsaIsNew, hs] at hstale
        exact Bool.noConfusion hstale
      | some e => exact akeyMem_true_of_alookup_some _ _ _ hs
    rw [processLsa, hdb1, hstale]
    by_cases hr : (learnNbrs st.nodeId lsa.source lsa.nbrs (st.linkStateDb, false)).2 = true
    · rw [if_pos hr]
      refine ⟨learnNbrs_lookup_mem _ _ _ _ _ _ hsrc, ?_, ?_⟩
      · exact ⟨fun _ => (learnNbrs_false_iff st.nodeId lsa.source lsa.nbrs
            st.linkStateDb).mp hr, fun _ => rfl⟩
      · intro h
        exact Bool.noConfusion h
    · rw [if_neg hr]
      rw [Bool.not_eq_true] at hr
      refine ⟨learnNbrs_lookup_mem _ _ _ _ _ _ hsrc, ?_, ?_⟩
      · constructor
        · intro h; exact Bool.noConfusion h
        · intro hex
          rw [← learnNbrs_false_iff st.nodeId lsa.source lsa.nbrs st.linkStateDb] at hex
          rw [hr] at hex
          exact Bool.noConfusion hex
      · intro _
        have hun := learnNbrs_false_unchanged st.nodeId lsa.source lsa.nbrs st.linkStateDb hr
        constructor
        · show ({st with linkStateDb := _} : LSState) = st
          rw [hun]
        · rfl
  · intro hnew
    have hdb1 : lsaDb1 st lsa = aset st.linkStateDb lsa.source (lsa.seqNum, lsa.nbrs) := by
      rw [lsaDb1, if_pos hnew]
    have hflag := learnNbrs_true st.nodeId lsa.source lsa.nbrs
      (aset st.linkStateDb lsa.source (lsa.seqNum, lsa.nbrs))
    rw [processLsa, hdb1, hnew, if_pos hflag]
    refine ⟨?_, rfl, rfl⟩
    rw [learnNbrs_lookup_mem _ _ _ _ _ _
      (akeyMem_true_of_alookup_some _ _ _ (alookup_aset_self _ _ _)),
      alookup_aset_self]

/-- Witness for C2 (amended) at concrete inputs: the stale-LSA side at
the counterexample input, and the accept side for a strictly newer
sequence number. -/
theorem process_lsa_amended_witness :
    (alookup (processLsa ⟨"A", ["B", "C"], [("A", (0, ["B", "C"])), ("B", (5, ["A"]))]⟩
        ⟨"B", 3, ["A", "X"]⟩).1.linkStateDb "B" =
      alookup [("A", (0, ["B", "C"])), ("B", (5, ["A"]))] "B" ∧
      ((processLsa ⟨"A", ["B", "C"], [("A", (0, ["B", "C"])), ("B", (5, ["A"]))]⟩
          ⟨"B", 3, ["A", "X"]⟩).2.1 = true ↔
        ∃ nb ∈ ["A", "X"], nb ≠ "A" ∧
          akeyMem [("A", (0, ["B", "C"])), ("B", (5, ["A"]))] nb = false) ∧
      ((processLsa ⟨"A", ["B", "C"], [("A", (0, ["B", "C"])), ("B", (5, ["A"]))]⟩
          ⟨"B", 3, ["A", "X"]⟩).2.1 = false →
        (processLsa ⟨"A", ["B", "C"], [("A", (0, ["B", "C"])), ("B", (5, ["A"]))]⟩
          ⟨"B", 3, ["A", "X"]⟩).1 =
          ⟨"A", ["B", "C"], [("A", (0, ["B", "C"])), ("B", (5, ["A"]))]⟩ ∧
        (processLsa ⟨"A", ["B", "C"], [("A", (0, ["B", "C"])), ("B", (5, ["A"]))]⟩
          ⟨"B", 3, ["A", "X"]⟩).2.2 = [])) ∧
    (alookup (processLsa ⟨"A", ["B", "C"], [("A", (0, ["B", "C"])), ("B", (5, ["A"]))]⟩
        ⟨"B", 7, ["A"]⟩).1.linkStateDb "B" = some (7, ["A"]) ∧
      (processLsa ⟨"A", ["B", "C"], [("A", (0, ["B", "C"])), ("B", (5, ["A"]))]⟩
        ⟨"B", 7, ["A"]⟩).2.1 = true ∧
      (processLsa ⟨"A", ["B", "C"], [("A", (0, ["B", "C"])), ("B", (5, ["A"]))]⟩
        ⟨"B", 7, ["A"]⟩).2.2 = ["B", "C"].filter fun n => n ≠ "B") :=
  ⟨(process_lsa_amended ⟨"A", ["B", "C"], [("A", (0, ["B", "C"])), ("B", (5, ["A"]))]⟩
      ⟨"B", 3, ["A", "X"]⟩).1 (by rfl),
   (process_lsa_amended ⟨"A", ["B", "C"], [("A", (0, ["B", "C"])), ("B", (5, ["A"]))]⟩
      ⟨"B", 7, ["A"]⟩).2 (by rfl)⟩

/-! ## RouterNode constructor dispatch (src/router.py, lines 44–50)

The `else` branch of the algorithm dispatch executes
`raise ValueError(f"Unknown algorithm: {algorithm}. ...")`, but no local
variable `algorithm` is in scope there (the parameter is
`router_config`), so evaluating the f-string raises
`NameError: name 'algorithm' is not defined` instead of the intended
`ValueError` naming the invalid choice.
-/

/-- A Python exception as observable at the constructor boundary. -/
inductive PyErr where
  | valueError (msg : String)
  | nameError (missing : String)
deriving DecidableEq, Repr

/-- Which routing engine the constructor initialized. -/
inductive RoutingInit where
  | distanceVector
  | linkState
deriving DecidableEq, Repr

/-- The algorithm dispatch of `RouterNode.__init__` (lines 44–50): the
failure branch raises `NameError` for the undefined name `algorithm`
while building the error message, before any routing state exists. -/
def routerInitAlgorithm (algorithmChoice : String) : Except PyErr RoutingInit :=
  if algorithmChoice = "distance_vector" then Except.ok RoutingInit.distanceVector
  else if algorithmChoice = "link_state" then Except.ok RoutingInit.linkState
  else Except.error (PyErr.nameError "algorithm")

/-- C8: constructing a `RouterNode` with an algorithm other than
'distance_vector' or 'link_state' does fail fast with no routing state
initialized, but the exception is a `NameError` for the undefined name
`algorithm` (the f-string of the intended `ValueError` references a
variable that does not exist), not a descriptive error naming the
invalid algorithm. -/
theorem router_init_invalid_algorithm :
    routerInitAlgorithm "foo" = Except.error (PyErr.nameError "algorithm") ∧
    (∀ msg, routerInitAlgorithm "foo" ≠ Except.error (PyErr.valueError msg)) ∧
    routerInitAlgorithm "distance_vector" = Except.ok RoutingInit.distanceVector ∧
    routerInitAlgorithm "link_state" = Except.ok RoutingInit.linkState := by
  refine ⟨rfl, ?_, rfl, rfl⟩
  intro msg h
  rw [routerInitAlgorithm] at h
  simp at h

end Redes
